import Mathlib

/-!
Verification of the path-enumeration program in `graph.cpp`.

The program builds a directed state graph from an adjacency specification
(a map from state name to an ordered list of successor names) and
enumerates every path from the entry state `"start"` to a branchless
state, rejecting direct self-loops and re-use of an already-taken
(state, branch) pair within one path.

Embedding conventions:
* a `State` is identified by its (unique, after validation) name;
* the i-th `Branch` object owned by state `s` is identified by the pair
  `(s, i)`; pointer equality of branch objects in the C++ code becomes
  equality of such pairs, and pointer equality of states becomes name
  equality;
* the adjacency specification is an ordered association list
  (`std::unordered_map` iteration order only affects the order of build
  steps, never each state's branch list, which is what enumeration order
  depends on);
* the recursive `findPathsImpl` is embedded with explicit fuel counting
  the allowed recursion depth; `none` means the fuel ran out.  The
  termination theorem shows that fuel `numPairs g + 1` always suffices,
  mirroring the depth bound argued in the program's design;
* `std::cerr` loop diagnostics become an explicit list of path snapshots
  threaded through the search.
-/

/-- The readable adjacency form of a parse graph: each entry pairs a state
name with the ordered list of names of its branched states.  Corresponds
to `StateToBranchedStates` in `graph.cpp` (there an `unordered_map`; an
association list keeps the declaration order and also lets the defensive
duplicate-name branch of `createGraph` be exercised). -/
abbrev StateToBranchedStates := List (String × List String)

/-- The three build failures `createGraph` reports on `cerr` before
returning a null pointer. -/
inductive BuildError where
  | DuplicateState (name : String)
  | UnresolvedReference (source target : String)
  | MissingEntryState
deriving Repr, DecidableEq

/-- A validated graph: the adjacency specification it was built from,
with entry state `"start"`.  Stands for the fully linked `State`/`Branch`
structure returned (via its start node) by `createGraph`. -/
structure Graph where
  adj : StateToBranchedStates
deriving Repr, DecidableEq

/-- The ordered branch list of state `s`: the targets of the `Branch`
objects pushed onto `s`'s `m_branches` by the second pass of
`createGraph`, in specification order.  A name that is not a key yields
`[]` (after validation every referenced name is a key). -/
def branchesOf (g : StateToBranchedStates) (s : String) : List String :=
  match g.find? (fun p => p.1 == s) with
  | some p => p.2
  | none => []

/-- First pass of `createGraph`: insert every state name into the
name-to-state map, failing on a duplicate insertion (the `emplace`
failure branch).  `acc` is the list of names inserted so far. -/
def insertStates : StateToBranchedStates → List String → Except BuildError (List String)
  | [], acc => .ok acc
  | (stateName, _) :: rest, acc =>
    if stateName ∈ acc then .error (.DuplicateState stateName)
    else insertStates rest (acc ++ [stateName])

/-- Second pass of `createGraph`, inner loop: resolve each branched state
name of `source` against the declared names, failing on the first name
with no definition. -/
def checkBranches (names : List String) (source : String) : List String → Except BuildError Unit
  | [] => .ok ()
  | target :: rest =>
    if target ∈ names then checkBranches names source rest
    else .error (.UnresolvedReference source target)

/-- Second pass of `createGraph`, outer loop over all declared states. -/
def checkAllBranches (names : List String) : StateToBranchedStates → Except BuildError Unit
  | [] => .ok ()
  | (source, succs) :: rest => do
    checkBranches names source succs
    checkAllBranches names rest

/-- Builds a parse graph from its readable form: first pass creates the
states (duplicate names fail), second pass links the branches (undefined
names fail), and finally the entry state `"start"` is looked up (absence
fails).  On any failure no graph is produced, matching the null
`shared_ptr` returned by `createGraph` in `graph.cpp`. -/
def createGraph (spec : StateToBranchedStates) : Except BuildError Graph := do
  let names ← insertStates spec []
  checkAllBranches names spec
  if "start" ∈ names then
    return ⟨spec⟩
  else
    throw .MissingEntryState

/-- A single element of a `ParsePath`: a state together with the branch
chosen to proceed to the next element (`none` while no branch is chosen).
The branch is recorded by its index in the state's branch list, which is
exactly the identity of the `Branch` object in `graph.cpp`. -/
structure Element where
  state : String
  branch : Option Nat
deriving Repr, DecidableEq

/-- A path in the parse graph: the `m_elements` vector of `ParsePath`,
front to back. -/
abbrev ParsePath := List Element

/-- The state-name sequence of a path, as printed by the stream output
operator of `ParsePath`. -/
def stateNames (p : ParsePath) : List String := p.map Element.state

/-- `ParsePath::pushState`: adds a new state to the end of the path, with
no branch chosen. -/
def pushState (p : ParsePath) (s : String) : ParsePath := p ++ [⟨s, none⟩]

/-- `ParsePath::popState`: removes the last state from the path. -/
def popState (p : ParsePath) : ParsePath := p.dropLast

/-- `ParsePath::followBranch` for branch number `i` of the last state of
the path, whose target state is `target`.  The branch is rejected when it
branches to the branching state itself, or when this same (state, branch)
pair is already part of the path; otherwise it is registered as the last
element's chosen branch.  Returns the updated path on success, `none` on
rejection (the C++ code mutates and returns `bool`). -/
def followBranch (path : ParsePath) (i : Nat) (target : String) : Option ParsePath :=
  match path.getLast? with
  | none => none
  | some last =>
    if target == last.state then
      none
    else if path.any (fun e => e.state == last.state && e.branch == some i) then
      none
    else
      some (path.dropLast ++ [⟨last.state, some i⟩])

/-- The outcome type of one call of the recursive path search: the
updated completed paths, the updated loop diagnostics and the current
path as left behind by the call (`none` when the fuel ran out). -/
abbrev SearchResult := Option (List ParsePath × List ParsePath × ParsePath)

/-- The branch loop of `findPathsImpl`: `bs` is the still-unprocessed
suffix of the branch list of the state being visited, starting at branch
number `i`; `followed` records whether some earlier branch of this state
was followed; `visit` is the recursive call of `findPathsImpl` (with its
fuel already decremented).  Each followed branch is recursed into on its
target state. -/
def tryBranches (visit : List ParsePath → List ParsePath → ParsePath → String → SearchResult) :
    List String → Nat → Bool → List ParsePath → List ParsePath → ParsePath →
    Option (List ParsePath × List ParsePath × ParsePath × Bool)
  | [], _, followed, paths, diags, path => some (paths, diags, path, followed)
  | target :: rest, i, followed, paths, diags, path =>
    match followBranch path i target with
    | none => tryBranches visit rest (i + 1) followed paths diags path
    | some path1 =>
      match visit paths diags path1 target with
      | none => none
      | some (paths1, diags1, path2) =>
        tryBranches visit rest (i + 1) true paths1 diags1 path2

/-- `findPathsImpl`: pushes `state` onto the current path; a branchless
state finalizes a copy of the path into `paths`; otherwise each branch is
tried in order, and if none was followed a loop diagnostic carrying the
current path is appended to `diags` (the `cerr` report).  Finally the
state is popped again.  `fuel` bounds the recursion depth; `none` means
it ran out. -/
def findPathsImpl : Nat → StateToBranchedStates →
    List ParsePath → List ParsePath → ParsePath → String → SearchResult
  | 0, _, _, _, _, _ => none
  | fuel + 1, g, paths, diags, currentPath, state =>
    let path1 := pushState currentPath state
    let bs := branchesOf g state
    if bs.isEmpty then
      some (paths ++ [path1], diags, popState path1)
    else
      match tryBranches (fun p d pa t => findPathsImpl fuel g p d pa t) bs 0 false paths diags path1 with
      | none => none
      | some (paths1, diags1, path2, followed) =>
        let diags2 := if followed then diags1 else diags1 ++ [path2]
        some (paths1, diags2, popState path2)

/-- `findPaths`: runs `findPathsImpl` from `state` with an empty current
path, returning the completed paths and the loop diagnostics. -/
def findPaths (g : StateToBranchedStates) (fuel : Nat) (state : String) :
    Option (List ParsePath × List ParsePath) :=
  match findPathsImpl fuel g [] [] [] state with
  | none => none
  | some (paths, diags, _) => some (paths, diags)

/-- The total number of (state, branch) pairs of the graph: the sum of
the branch-list lengths. -/
def numPairs (g : StateToBranchedStates) : Nat :=
  (g.map (fun p => p.2.length)).sum

/-- The hard-coded `ParseGraph` of `graph.cpp`, in declaration order. -/
def ParseGraph : StateToBranchedStates :=
  [("start", ["start_loop", "s1"]),
   ("start_loop", ["loop_1", "s1"]),
   ("loop_1", ["loop_2"]),
   ("loop_2", ["start_loop", "accept"]),
   ("s1", ["accept"]),
   ("accept", [])]

/-- The dead-loop graph of the dead-loop scenario: a cycle with no
branchless state reachable. -/
def DeadLoopGraph : StateToBranchedStates :=
  [("start", ["loop_a"]),
   ("loop_a", ["loop_b"]),
   ("loop_b", ["loop_a"])]

/-- C1: for the hard-coded `ParseGraph` adjacency specification,
enumeration from the entry state `start` yields exactly the four
completed paths of the specification, in exactly this order. -/
theorem c1_concrete_scenario :
    (findPaths ParseGraph (numPairs ParseGraph + 1) "start").map (fun r => r.1.map stateNames) =
      some [["start", "start_loop", "loop_1", "loop_2", "start_loop", "s1", "accept"],
            ["start", "start_loop", "loop_1", "loop_2", "accept"],
            ["start", "start_loop", "s1", "accept"],
            ["start", "s1", "accept"]] := by decide

/-- C2, counterexample: on the dead-loop graph the enumeration does emit
exactly one loop diagnostic and no completed path, but the state-name
sequence of the reported path snapshot is
`start, loop_a, loop_b, loop_a` — not `start, loop_a, loop_b` as
claimed (the diagnostic is emitted after the looping state `loop_a` has
been pushed a second time). -/
theorem c2_snapshot_counterexample :
    (findPaths DeadLoopGraph (numPairs DeadLoopGraph + 1) "start").map
        (fun r => (r.1.map stateNames, r.2.map stateNames)) =
      some ([], [["start", "loop_a", "loop_b", "loop_a"]]) ∧
    (["start", "loop_a", "loop_b", "loop_a"] : List String) ≠ ["start", "loop_a", "loop_b"] := by
  constructor
  · decide
  · decide

/-- C2, amended: on the dead-loop graph, enumeration from `start` yields
zero completed paths and exactly one loop diagnostic, and the path
snapshot reported by that diagnostic has the state-name sequence
`start, loop_a, loop_b, loop_a` (the loop entry state reappears as the
last element, since the diagnostic carries the path including the
just-re-pushed state). -/
theorem c2_dead_loop_scenario :
    (findPaths DeadLoopGraph (numPairs DeadLoopGraph + 1) "start").map
        (fun r => (r.1.map stateNames, r.2.map stateNames)) =
      some ([], [["start", "loop_a", "loop_b", "loop_a"]]) := by decide

theorem insertStates_mem_error (spec : StateToBranchedStates) :
    ∀ acc n, n ∈ acc → n ∈ spec.map Prod.fst →
      ∃ m, insertStates spec acc = .error (.DuplicateState m) := by
  induction spec with
  | nil => intro acc n _ h2; simp at h2
  | cons head rest ih =>
    intro acc n h1 h2
    obtain ⟨name, succs⟩ := head
    by_cases hmem : name ∈ acc
    · exact ⟨name, by simp [insertStates, hmem]⟩
    · simp only [insertStates, if_neg hmem]
      simp only [List.map_cons, List.mem_cons] at h2
      rcases h2 with heq | h2
      · exact absurd (heq ▸ h1) hmem
      · exact ih (acc ++ [name]) n (by simp [h1]) h2

theorem insertStates_dup_error (spec : StateToBranchedStates) :
    ∀ acc, ¬ (spec.map Prod.fst).Nodup →
      ∃ m, insertStates spec acc = .error (.DuplicateState m) := by
  induction spec with
  | nil => intro acc h; simp at h
  | cons head rest ih =>
    intro acc h
    obtain ⟨name, succs⟩ := head
    by_cases hmem : name ∈ acc
    · exact ⟨name, by simp [insertStates, hmem]⟩
    · simp only [insertStates, if_neg hmem]
      by_cases hdup : (rest.map Prod.fst).Nodup
      · have hin : name ∈ rest.map Prod.fst := by
          by_contra hnin
          exact h (by simp [List.nodup_cons, hnin, hdup])
        exact insertStates_mem_error rest (acc ++ [name]) name (by simp) hin
      · exact ih (acc ++ [name]) hdup

theorem insertStates_ok (spec : StateToBranchedStates) :
    ∀ acc, (acc ++ spec.map Prod.fst).Nodup →
      insertStates spec acc = .ok (acc ++ spec.map Prod.fst) := by
  induction spec with
  | nil => intro acc _; simp [insertStates]
  | cons head rest ih =>
    intro acc h
    obtain ⟨name, succs⟩ := head
    simp only [List.map_cons] at h
    have hmem : name ∉ acc := by
      intro hc
      rcases List.nodup_append.mp h with ⟨-, -, hdisj⟩
      exact hdisj hc (List.mem_cons_self _ _)
    have h' : ((acc ++ [name]) ++ rest.map Prod.fst).Nodup := by
      simpa [List.append_assoc] using h
    simp only [insertStates, if_neg hmem, ih (acc ++ [name]) h']
    simp [List.append_assoc]

theorem checkBranches_ok (names : List String) (source : String) :
    ∀ succs, (∀ t ∈ succs, t ∈ names) → checkBranches names source succs = .ok () := by
  intro succs h
  induction succs with
  | nil => simp [checkBranches]
  | cons t rest ih =>
    have ht : t ∈ names := h t (List.mem_cons_self _ _)
    simp only [checkBranches, if_pos ht]
    exact ih (fun u hu => h u (List.mem_cons_of_mem _ hu))

theorem checkBranches_error (names : List String) (source : String) :
    ∀ succs, ∀ t ∈ succs, t ∉ names →
      ∃ u, checkBranches names source succs = .error (.UnresolvedReference source u) := by
  intro succs
  induction succs with
  | nil => intro t ht _; simp at ht
  | cons v rest ih =>
    intro t ht hnot
    by_cases hv : v ∈ names
    · simp only [checkBranches, if_pos hv]
      rcases List.mem_cons.mp ht with heq | hrest
      · exact absurd (heq ▸ hnot) (by simpa [heq] using hv)
      · exact ih t hrest hnot
    · exact ⟨v, by simp [checkBranches, hv]⟩

theorem checkBranches_error_shape (names : List String) (source : String) :
    ∀ succs e, checkBranches names source succs = .error e →
      ∃ u, e = .UnresolvedReference source u := by
  intro succs
  induction succs with
  | nil => intro e he; simp [checkBranches] at he
  | cons v rest ih =>
    intro e he
    by_cases hv : v ∈ names
    · exact ih e (by simpa [checkBranches, if_pos hv] using he)
    · simp [checkBranches, hv] at he
      exact ⟨v, he.symm⟩

theorem checkAllBranches_ok (names : List String) :
    ∀ spec : StateToBranchedStates, (∀ p ∈ spec, ∀ t ∈ p.2, t ∈ names) →
      checkAllBranches names spec = .ok () := by
  intro spec h
  induction spec with
  | nil => simp [checkAllBranches]
  | cons head rest ih =>
    obtain ⟨source, succs⟩ := head
    have hok : checkBranches names source succs = .ok () :=
      checkBranches_ok names source succs (h (source, succs) (List.mem_cons_self _ _))
    simp only [checkAllBranches, hok, Except.bind]
    exact ih (fun p hp => h p (List.mem_cons_of_mem _ hp))

theorem checkAllBranches_error (names : List String) :
    ∀ spec : StateToBranchedStates, (∃ p ∈ spec, ∃ t ∈ p.2, t ∉ names) →
      ∃ a b, checkAllBranches names spec = .error (.UnresolvedReference a b) := by
  intro spec h
  induction spec with
  | nil => obtain ⟨p, hp, -⟩ := h; simp at hp
  | cons head rest ih =>
    obtain ⟨source, succs⟩ := head
    cases hcb : checkBranches names source succs with
    | error e =>
      obtain ⟨u, hu⟩ := checkBranches_error_shape names source succs e hcb
      refine ⟨source, u, ?_⟩
      simp only [checkAllBranches, hcb, hu]
      rfl
    | ok u0 =>
      obtain ⟨p, hp, t, ht, hnot⟩ := h
      rcases List.mem_cons.mp hp with heq | hrest
      · obtain ⟨u, hu⟩ :=
          checkBranches_error names source succs t (by simpa [heq] using ht) hnot
        rw [hu] at hcb
        cases hcb
      · obtain ⟨a, b, hab⟩ := ih ⟨p, hrest, t, ht, hnot⟩
        refine ⟨a, b, ?_⟩
        simp only [checkAllBranches, hcb]
        exact hab

/-- C8: building from a specification containing a duplicate state name
always fails with `DuplicateState`; no graph is returned, so the earlier
state is never silently overwritten.  The hypothesis says a name occurs
twice among the specification entries, i.e. its insertion into the
name-to-state map is attempted twice. -/
theorem c8_duplicate_state (spec : StateToBranchedStates)
    (h : ¬ (spec.map Prod.fst).Nodup) :
    ∃ n, createGraph spec = .error (.DuplicateState n) := by
  obtain ⟨m, hm⟩ := insertStates_dup_error spec [] h
  refine ⟨m, ?_⟩
  simp only [createGraph, hm]
  rfl

/-- C8 witness: the duplicated name `a` makes the build fail with
`DuplicateState`. -/
theorem c8_duplicate_state_witness :
    ¬ ((([("a", []), ("a", [])] : StateToBranchedStates).map Prod.fst).Nodup) ∧
      ∃ n, createGraph [("a", []), ("a", [])] = .error (.DuplicateState n) :=
  ⟨by decide, c8_duplicate_state [("a", []), ("a", [])] (by decide)⟩

/-- C7, counterexample: a specification with no `start` key whose only
entry references an undeclared state fails with `UnresolvedReference`,
not with `MissingEntryState` — the unresolved-reference check of
`createGraph` runs before the entry-state lookup, so "building from a
specification with no start key always fails with MissingEntryState" is
false as stated. -/
theorem c7_missing_entry_counterexample :
    ("start" ∉ (([("a", ["b"])] : StateToBranchedStates).map Prod.fst)) ∧
      createGraph [("a", ["b"])] = .error (.UnresolvedReference "a" "b") ∧
      BuildError.UnresolvedReference "a" "b" ≠ .MissingEntryState := by
  refine ⟨by decide, by rfl, by decide⟩

/-- C7, amended: for a specification whose state names are pairwise
distinct (the map-typed input of the code), (1) if some successor name
does not resolve to a declared state the build always fails with
`UnresolvedReference`, and (2) if additionally every successor name
resolves, a specification with no `start` key always fails with
`MissingEntryState` (an unresolved reference found first takes
precedence).  In both cases the result is an error of the `Except`
type, so no graph handle — not even a partial one — is produced. -/
theorem c7_build_failures (spec : StateToBranchedStates)
    (hnd : (spec.map Prod.fst).Nodup) :
    ((∃ p ∈ spec, ∃ t ∈ p.2, t ∉ spec.map Prod.fst) →
      ∃ a b, createGraph spec = .error (.UnresolvedReference a b)) ∧
    (("start" ∉ spec.map Prod.fst ∧ ∀ p ∈ spec, ∀ t ∈ p.2, t ∈ spec.map Prod.fst) →
      createGraph spec = .error .MissingEntryState) := by
  have hins : insertStates spec [] = .ok (spec.map Prod.fst) := by
    simpa using insertStates_ok spec [] (by simpa using hnd)
  have hbind_ok : ∀ {α β : Type} (x : α) (k : α → Except BuildError β),
      (Except.ok x >>= k) = k x := fun _ _ => rfl
  have hbind_error : ∀ {α β : Type} (e : BuildError) (k : α → Except BuildError β),
      (Except.error e >>= k) = Except.error e := fun _ _ => rfl
  constructor
  · intro hex
    obtain ⟨a, b, hab⟩ := checkAllBranches_error (spec.map Prod.fst) spec hex
    refine ⟨a, b, ?_⟩
    simp only [createGraph, hins, hbind_ok, hab, hbind_error]
  · intro ⟨hstart, hres⟩
    have hok : checkAllBranches (spec.map Prod.fst) spec = .ok () :=
      checkAllBranches_ok (spec.map Prod.fst) spec hres
    simp only [createGraph, hins, hbind_ok, hok]
    simp only [if_neg hstart]
    rfl

/-- C7 witness: a dangling successor gives `UnresolvedReference`; a
fully resolved specification without a `start` key gives
`MissingEntryState`. -/
theorem c7_build_failures_witness :
    (∃ a b, createGraph [("start", ["missing"])] = .error (.UnresolvedReference a b)) ∧
      createGraph [("a", ["a"])] = .error .MissingEntryState :=
  ⟨(c7_build_failures [("start", ["missing"])] (by decide)).1 (by decide),
   (c7_build_failures [("a", ["a"])] (by decide)).2 (by decide)⟩

theorem followBranch_some_eq (pre : ParsePath) (s : String) (lb : Option Nat)
    (i : Nat) (t : String) (q : ParsePath)
    (h : followBranch (pre ++ [⟨s, lb⟩]) i t = some q) :
    q = pre ++ [⟨s, some i⟩] := by
  simp only [followBranch, List.getLast?_concat, List.dropLast_concat] at h
  split at h
  · exact Option.noConfusion h
  · split at h
    · exact Option.noConfusion h
    · exact (Option.some_inj.mp h).symm

theorem followBranch_some_checks (pre : ParsePath) (s : String) (lb : Option Nat)
    (i : Nat) (t : String) (q : ParsePath)
    (h : followBranch (pre ++ [⟨s, lb⟩]) i t = some q) :
    t ≠ s ∧ ∀ e ∈ pre ++ [⟨s, lb⟩], ¬(e.state = s ∧ e.branch = some i) := by
  simp only [followBranch, List.getLast?_concat, List.dropLast_concat] at h
  split at h
  · exact Option.noConfusion h
  · rename_i h1
    split at h
    · exact Option.noConfusion h
    · rename_i h2
      refine ⟨by simpa using h1, ?_⟩
      intro e he hc
      exact h2 (List.any_eq_true.mpr ⟨e, he, by simp [hc.1, hc.2]⟩)

theorem followBranch_some_of (pre : ParsePath) (s : String) (lb : Option Nat)
    (i : Nat) (t : String) (h1 : t ≠ s)
    (h2 : ∀ e ∈ pre ++ [⟨s, lb⟩], ¬(e.state = s ∧ e.branch = some i)) :
    followBranch (pre ++ [⟨s, lb⟩]) i t = some (pre ++ [⟨s, some i⟩]) := by
  have hA : ¬((t == s) = true) := by simpa using h1
  have hB : ¬(((pre ++ [(⟨s, lb⟩ : Element)]).any
      fun e => e.state == s && e.branch == some i) = true) := by
    intro hany
    obtain ⟨e, he, hcheck⟩ := List.any_eq_true.mp hany
    exact h2 e he (by simpa using hcheck)
  simp only [followBranch, List.getLast?_concat, List.dropLast_concat]
  rw [if_neg hA, if_neg hB]

theorem followBranch_none_cases (pre : ParsePath) (s : String) (lb : Option Nat)
    (i : Nat) (t : String)
    (h : followBranch (pre ++ [⟨s, lb⟩]) i t = none) :
    t = s ∨ ∃ e ∈ pre ++ [⟨s, lb⟩], e.state = s ∧ e.branch = some i := by
  by_cases h1 : t = s
  · exact Or.inl h1
  · right
    by_contra hno
    push_neg at hno
    rw [followBranch_some_of pre s lb i t h1 ?_] at h
    · cases h
    · intro e he hc
      exact hno e he hc.1 hc.2

theorem findPathsImpl_restore :
    ∀ (fuel : Nat) (g : StateToBranchedStates) (paths diags : List ParsePath)
      (path : ParsePath) (state : String) (paths1 diags1 : List ParsePath) (path1 : ParsePath),
      findPathsImpl fuel g paths diags path state = some (paths1, diags1, path1) →
      path1 = path := by
  intro fuel
  induction fuel with
  | zero =>
    intro g paths diags path state paths1 diags1 path1 h
    exact Option.noConfusion h
  | succ f ih =>
    have htb : ∀ (g : StateToBranchedStates) (bs : List String) (i : Nat) (fl : Bool)
        (paths diags : List ParsePath) (pre : ParsePath) (s : String) (lb : Option Nat)
        (paths1 diags1 : List ParsePath) (path2 : ParsePath) (fl2 : Bool),
        tryBranches (fun p d pa t => findPathsImpl f g p d pa t) bs i fl paths diags
            (pre ++ [⟨s, lb⟩]) = some (paths1, diags1, path2, fl2) →
        ∃ lb2, path2 = pre ++ [⟨s, lb2⟩] := by
      intro g bs
      induction bs with
      | nil =>
        intro i fl paths diags pre s lb paths1 diags1 path2 fl2 h
        simp only [tryBranches, Option.some_inj, Prod.mk.injEq] at h
        exact ⟨lb, h.2.2.1.symm⟩
      | cons t rest ihb =>
        intro i fl paths diags pre s lb paths1 diags1 path2 fl2 h
        simp only [tryBranches] at h
        cases hfb : followBranch (pre ++ [⟨s, lb⟩]) i t with
        | none =>
          simp only [hfb] at h
          exact ihb (i + 1) fl paths diags pre s lb paths1 diags1 path2 fl2 h
        | some q =>
          simp only [hfb] at h
          obtain rfl : q = pre ++ [⟨s, some i⟩] := followBranch_some_eq pre s lb i t q hfb
          cases hrec : findPathsImpl f g paths diags (pre ++ [⟨s, some i⟩]) t with
          | none =>
            simp only [hrec] at h
            exact Option.noConfusion h
          | some r =>
            obtain ⟨rp, rd, rpath⟩ := r
            simp only [hrec] at h
            have hre : rpath = pre ++ [⟨s, some i⟩] :=
              ih g paths diags (pre ++ [⟨s, some i⟩]) t rp rd rpath hrec
            rw [hre] at h
            exact ihb (i + 1) true rp rd pre s (some i) paths1 diags1 path2 fl2 h
    intro g paths diags path state paths1 diags1 path1 h
    simp only [findPathsImpl] at h
    split at h
    · simp only [Option.some_inj, Prod.mk.injEq] at h
      rw [← h.2.2]
      simp [popState, pushState]
    · cases htr : tryBranches (fun p d pa t => findPathsImpl f g p d pa t)
          (branchesOf g state) 0 false paths diags (pushState path state) with
      | none =>
        simp only [htr] at h
        exact Option.noConfusion h
      | some r =>
        obtain ⟨rp, rd, rpath, rfl2⟩ := r
        simp only [htr] at h
        obtain ⟨lb2, hlb2⟩ :=
          htb g (branchesOf g state) 0 false paths diags path state none rp rd rpath rfl2 htr
        simp only [Option.some_inj, Prod.mk.injEq] at h
        rw [← h.2.2, hlb2]
        simp [popState]

/-- C9: every invocation of the recursive visit procedure restores the
path it was given: whatever happened inside (terminal state, followed
branches, or all branches rejected), the state pushed on entry is popped
on every exit, so the current path returned by `findPathsImpl` equals
the current path at the moment of the call. -/
theorem c9_visit_restores_path (fuel : Nat) (g : StateToBranchedStates)
    (paths diags : List ParsePath) (path : ParsePath) (state : String)
    (paths1 diags1 : List ParsePath) (path1 : ParsePath)
    (h : findPathsImpl fuel g paths diags path state = some (paths1, diags1, path1)) :
    path1 = path :=
  findPathsImpl_restore fuel g paths diags path state paths1 diags1 path1 h

/-- C9 witness: a concrete inner invocation of the visit procedure on
`ParseGraph` (visiting `start_loop` with `start` already on the path)
returns with the current path exactly as it was passed in. -/
theorem c9_visit_restores_path_witness :
    findPathsImpl 8 ParseGraph [] [] [⟨"start", some 0⟩] "start_loop" =
      some ([[⟨"start", some 0⟩, ⟨"start_loop", some 0⟩, ⟨"loop_1", some 0⟩,
              ⟨"loop_2", some 0⟩, ⟨"start_loop", some 1⟩, ⟨"s1", some 0⟩, ⟨"accept", none⟩],
             [⟨"start", some 0⟩, ⟨"start_loop", some 0⟩, ⟨"loop_1", some 0⟩,
              ⟨"loop_2", some 1⟩, ⟨"accept", none⟩],
             [⟨"start", some 0⟩, ⟨"start_loop", some 1⟩, ⟨"s1", some 0⟩, ⟨"accept", none⟩]],
            [], [⟨"start", some 0⟩]) ∧
      ([⟨"start", some 0⟩] : ParsePath) = [⟨"start", some 0⟩] := by
  constructor
  · decide
  · exact c9_visit_restores_path 8 ParseGraph [] [] [⟨"start", some 0⟩] "start_loop"
      [[⟨"start", some 0⟩, ⟨"start_loop", some 0⟩, ⟨"loop_1", some 0⟩,
        ⟨"loop_2", some 0⟩, ⟨"start_loop", some 1⟩, ⟨"s1", some 0⟩, ⟨"accept", none⟩],
       [⟨"start", some 0⟩, ⟨"start_loop", some 0⟩, ⟨"loop_1", some 0⟩,
        ⟨"loop_2", some 1⟩, ⟨"accept", none⟩],
       [⟨"start", some 0⟩, ⟨"start_loop", some 1⟩, ⟨"s1", some 0⟩, ⟨"accept", none⟩]]
      [] [⟨"start", some 0⟩] (by decide)

/-- The (state, branch) pairs chosen along a path: one pair per element
whose branch has been chosen.  This is the quantity the termination
argument counts. -/
def chosenPairs (p : ParsePath) : List (String × Nat) :=
  p.filterMap (fun e => e.branch.map (fun i => (e.state, i)))

/-- All (state, branch) pairs of the graph. -/
def allPairs (g : StateToBranchedStates) : List (String × Nat) :=
  g.flatMap (fun p => (List.range p.2.length).map (fun i => (p.1, i)))

/-- The invariant maintained on the current path by the search: the
chosen (state, branch) pairs are pairwise distinct and each names an
actual branch of its state. -/
def PathOK (g : StateToBranchedStates) (p : ParsePath) : Prop :=
  (chosenPairs p).Nodup ∧ ∀ q ∈ chosenPairs p, q.2 < (branchesOf g q.1).length

theorem chosenPairs_concat_some (l : ParsePath) (s : String) (i : Nat) :
    chosenPairs (l ++ [⟨s, some i⟩]) = chosenPairs l ++ [(s, i)] := by
  simp [chosenPairs]

theorem chosenPairs_concat_none (l : ParsePath) (s : String) :
    chosenPairs (l ++ [⟨s, none⟩]) = chosenPairs l := by
  simp [chosenPairs]

theorem chosenPairs_mem (l : ParsePath) (s : String) (i : Nat) :
    (s, i) ∈ chosenPairs l ↔ ∃ e ∈ l, e.state = s ∧ e.branch = some i := by
  simp only [chosenPairs, List.mem_filterMap, Option.map_eq_some']
  constructor
  · rintro ⟨e, he, j, hj, heq⟩
    cases heq
    exact ⟨e, he, rfl, hj⟩
  · rintro ⟨e, he, hs, hb⟩
    exact ⟨e, he, i, hb, by rw [hs]⟩

theorem allPairs_length (g : StateToBranchedStates) :
    (allPairs g).length = numPairs g := by
  induction g with
  | nil => rfl
  | cons p rest ih => simp [allPairs, numPairs, List.flatMap] at ih ⊢; omega

theorem mem_allPairs_of_valid (g : StateToBranchedStates) (s : String) (i : Nat)
    (h : i < (branchesOf g s).length) : (s, i) ∈ allPairs g := by
  unfold branchesOf at h
  cases hf : g.find? (fun p => p.1 == s) with
  | none => rw [hf] at h; simp at h
  | some p0 =>
    rw [hf] at h
    have hmem : p0 ∈ g := List.mem_of_find?_eq_some hf
    have heq : p0.1 = s := by simpa using List.find?_some hf
    refine List.mem_flatMap.mpr ⟨p0, hmem, ?_⟩
    simp only [List.mem_map, List.mem_range]
    exact ⟨i, h, by rw [heq]⟩

theorem chosenPairs_length_le (g : StateToBranchedStates) (l : ParsePath)
    (h : PathOK g l) : (chosenPairs l).length ≤ numPairs g := by
  rw [← allPairs_length g]
  refine (List.subperm_of_subset h.1 ?_).length_le
  intro q hq
  exact mem_allPairs_of_valid g q.1 q.2 (h.2 q hq)

theorem findPathsImpl_total :
    ∀ (fuel : Nat) (g : StateToBranchedStates) (paths diags : List ParsePath)
      (path : ParsePath) (state : String),
      PathOK g path →
      numPairs g + 1 ≤ fuel + (chosenPairs path).length →
      ∃ r, findPathsImpl fuel g paths diags path state = some r := by
  intro fuel
  induction fuel with
  | zero =>
    intro g paths diags path state hok hcount
    have := chosenPairs_length_le g path hok
    omega
  | succ f ih =>
    have htb : ∀ (g : StateToBranchedStates) (bs : List String) (i : Nat) (fl : Bool)
        (paths diags : List ParsePath) (pre : ParsePath) (s : String) (lb : Option Nat),
        bs = (branchesOf g s).drop i →
        PathOK g pre →
        numPairs g ≤ f + (chosenPairs pre).length →
        ∃ r, tryBranches (fun p d pa t => findPathsImpl f g p d pa t) bs i fl paths diags
            (pre ++ [⟨s, lb⟩]) = some r := by
      intro g bs
      induction bs with
      | nil =>
        intro i fl paths diags pre s lb _ _ _
        exact ⟨_, rfl⟩
      | cons t rest ihb =>
        intro i fl paths diags pre s lb hbs hok hcount
        have hrest : rest = (branchesOf g s).drop (i + 1) := by
          have h1 : ((branchesOf g s).drop i).drop 1 = (branchesOf g s).drop (i + 1) :=
            List.drop_drop 1 i _
          rw [← hbs] at h1
          simpa using h1
        have hlen : i < (branchesOf g s).length := by
          by_contra hge
          push_neg at hge
          have hnil : (branchesOf g s).drop i = [] := List.drop_eq_nil_of_le hge
          rw [← hbs] at hnil
          cases hnil
        simp only [tryBranches]
        cases hfb : followBranch (pre ++ [⟨s, lb⟩]) i t with
        | none =>
          obtain ⟨r, hr⟩ := ihb (i + 1) fl paths diags pre s lb hrest hok hcount
          exact ⟨r, by simp only [hfb]; exact hr⟩
        | some q =>
          obtain rfl : q = pre ++ [⟨s, some i⟩] := followBranch_some_eq pre s lb i t q hfb
          have hchecks := followBranch_some_checks pre s lb i t _ hfb
          have hnotmem : (s, i) ∉ chosenPairs pre := by
            rw [chosenPairs_mem]
            rintro ⟨e, he, hs, hb⟩
            exact hchecks.2 e (List.mem_append_left _ he) ⟨hs, hb⟩
          have hok2 : PathOK g (pre ++ [⟨s, some i⟩]) := by
            constructor
            · rw [chosenPairs_concat_some]
              refine List.Nodup.append hok.1 (List.nodup_singleton _) ?_
              intro b hb hbm
              simp only [List.mem_singleton] at hbm
              subst hbm
              exact hnotmem hb
            · rw [chosenPairs_concat_some]
              intro q hq
              rcases List.mem_append.mp hq with h1 | h2
              · exact hok.2 q h1
              · simp only [List.mem_singleton] at h2
                subst h2
                exact hlen
          have hcount2 : numPairs g + 1 ≤ f + (chosenPairs (pre ++ [⟨s, some i⟩])).length := by
            rw [chosenPairs_concat_some, List.length_append, List.length_singleton]
            omega
          obtain ⟨r, hr⟩ := ih g paths diags (pre ++ [⟨s, some i⟩]) t hok2 hcount2
          obtain ⟨rp, rd, rpath⟩ := r
          have hre : rpath = pre ++ [⟨s, some i⟩] :=
            findPathsImpl_restore f g paths diags _ t rp rd rpath hr
          subst hre
          obtain ⟨r2, hr2⟩ := ihb (i + 1) true rp rd pre s (some i) hrest hok hcount
          refine ⟨r2, ?_⟩
          simp only [hfb, hr]
          exact hr2
    intro g paths diags path state hok hcount
    by_cases hempty : (branchesOf g state).isEmpty = true
    · exact ⟨(paths ++ [pushState path state], diags, popState (pushState path state)),
        by simp only [findPathsImpl]; rw [if_pos hempty]⟩
    · have hc2 : numPairs g ≤ f + (chosenPairs path).length := by omega
      obtain ⟨r, hr⟩ := htb g (branchesOf g state) 0 false paths diags path state none
        (by simp) hok hc2
      obtain ⟨rp, rd, rpath, fl⟩ := r
      refine ⟨(rp, if fl then rd else rd ++ [rpath], popState rpath), ?_⟩
      simp only [findPathsImpl]
      rw [if_neg hempty]
      simp only [pushState] at hr ⊢
      simp only [hr]

/-- C3: for every graph with finitely many (state, branch) pairs —
cycles included — the enumeration terminates: recursion depth is
bounded by the number of (state, branch) pairs plus one, because a
given (state, branch) pair can appear at most once per path, so running
the search with that much fuel always completes and returns a finite
list of completed paths. -/
theorem c3_termination (g : StateToBranchedStates) (state : String) :
    ∃ r, findPaths g (numPairs g + 1) state = some r := by
  have hok : PathOK g [] := by
    constructor
    · exact List.nodup_nil
    · intro q hq
      simp [chosenPairs] at hq
  obtain ⟨r, hr⟩ := findPathsImpl_total (numPairs g + 1) g [] [] [] state hok
    (by simp [chosenPairs])
  obtain ⟨rp, rd, rpath⟩ := r
  exact ⟨(rp, rd), by simp [findPaths, hr]⟩

/-- Whether element `e` correctly links to the following element
`enext`: `e`'s chosen branch exists in `e`'s state's branch list and
its target is exactly `enext`'s state. -/
def linked (g : StateToBranchedStates) (e enext : Element) : Bool :=
  match e.branch with
  | some i => (branchesOf g e.state)[i]? == some enext.state
  | none => false

/-- A completed path as appended to the result set: non-empty, its
final element has no chosen branch and a branchless state, and every
earlier element's chosen branch is drawn from its state's branch list
and targets exactly the next element's state. -/
def wellFormed (g : StateToBranchedStates) : ParsePath → Bool
  | [] => false
  | [e] => e.branch == none && (branchesOf g e.state).isEmpty
  | e :: enext :: rest => linked g e enext && wellFormed g (enext :: rest)

/-- An in-progress path whose every element links to the next, the last
one linking to the state `s` about to be visited. -/
def chainTo (g : StateToBranchedStates) : ParsePath → String → Bool
  | [], _ => true
  | [e], s => linked g e ⟨s, none⟩
  | e :: enext :: rest, s => linked g e enext && chainTo g (enext :: rest) s

/-- No element of the path has chosen a branch whose target is the
element's own state (rule 3a of the search: self-loops are never
followed). -/
def noSelfChoice (g : StateToBranchedStates) (p : ParsePath) : Bool :=
  p.all (fun e =>
    match e.branch with
    | some i => !((branchesOf g e.state)[i]? == some e.state)
    | none => true)

/-- The full well-formedness package of a produced path: correctly
chained into the graph, never choosing a self-branch, and never
choosing the same (state, branch) pair twice. -/
def GoodPath (g : StateToBranchedStates) (p : ParsePath) : Prop :=
  wellFormed g p = true ∧ noSelfChoice g p = true ∧ (chosenPairs p).Nodup

theorem getElem?_of_drop_cons {l : List String} {i : Nat} {t : String} {rest : List String}
    (h : l.drop i = t :: rest) : l[i]? = some t := by
  have h0 : (l.drop i)[0]? = l[i + 0]? := List.getElem?_drop l i 0
  rw [h] at h0
  simpa using h0.symm

theorem wellFormed_concat_of_chainTo (g : StateToBranchedStates) :
    ∀ (p : ParsePath) (s : String), chainTo g p s = true →
      (branchesOf g s).isEmpty = true → wellFormed g (p ++ [⟨s, none⟩]) = true := by
  intro p
  induction p with
  | nil =>
    intro s _ hempty
    simp [wellFormed, hempty]
  | cons e p ih =>
    intro s hchain hempty
    cases p with
    | nil =>
      simp only [chainTo] at hchain
      simp only [List.cons_append, List.nil_append, wellFormed, Bool.and_eq_true]
      exact ⟨hchain, by simp [wellFormed, hempty]⟩
    | cons e2 p2 =>
      simp only [chainTo, Bool.and_eq_true] at hchain
      simp only [List.cons_append, wellFormed, Bool.and_eq_true]
      exact ⟨hchain.1, ih s hchain.2 hempty⟩

theorem chainTo_concat (g : StateToBranchedStates) :
    ∀ (p : ParsePath) (s : String) (i : Nat) (t : String), chainTo g p s = true →
      (branchesOf g s)[i]? = some t → chainTo g (p ++ [⟨s, some i⟩]) t = true := by
  intro p
  induction p with
  | nil =>
    intro s i t _ hget
    simp [chainTo, linked, hget]
  | cons e p ih =>
    intro s i t hchain hget
    cases p with
    | nil =>
      simp only [chainTo] at hchain
      simp only [List.cons_append, List.nil_append, chainTo, Bool.and_eq_true]
      refine ⟨?_, by simp [chainTo, linked, hget]⟩
      simpa [linked] using hchain
    | cons e2 p2 =>
      simp only [chainTo, Bool.and_eq_true] at hchain
      simp only [List.cons_append, chainTo, Bool.and_eq_true]
      exact ⟨hchain.1, ih s i t hchain.2 hget⟩

theorem noSelfChoice_concat_none (g : StateToBranchedStates) (p : ParsePath) (s : String) :
    noSelfChoice g (p ++ [⟨s, none⟩]) = noSelfChoice g p := by
  simp [noSelfChoice]

theorem noSelfChoice_concat_some (g : StateToBranchedStates) (p : ParsePath)
    (s : String) (i : Nat) (t : String) (hget : (branchesOf g s)[i]? = some t)
    (hne : t ≠ s) (hp : noSelfChoice g p = true) :
    noSelfChoice g (p ++ [⟨s, some i⟩]) = true := by
  simp only [noSelfChoice, List.all_append, Bool.and_eq_true]
  refine ⟨hp, ?_⟩
  simp only [List.all_cons, List.all_nil, Bool.and_true]
  simp [hget]
  intro hc
  exact hne hc

theorem findPathsImpl_good :
    ∀ (fuel : Nat) (g : StateToBranchedStates) (paths diags : List ParsePath)
      (path : ParsePath) (state : String) (paths1 diags1 : List ParsePath) (path1 : ParsePath),
      findPathsImpl fuel g paths diags path state = some (paths1, diags1, path1) →
      chainTo g path state = true →
      noSelfChoice g path = true →
      (chosenPairs path).Nodup →
      (∀ q ∈ paths, GoodPath g q) →
      ∀ q ∈ paths1, GoodPath g q := by
  intro fuel
  induction fuel with
  | zero =>
    intro g paths diags path state paths1 diags1 path1 h
    exact absurd h (by simp [findPathsImpl])
  | succ f ih =>
    have htb : ∀ (g : StateToBranchedStates) (bs : List String) (i : Nat) (fl : Bool)
        (paths diags : List ParsePath) (pre : ParsePath) (s : String) (lb : Option Nat)
        (paths1 diags1 : List ParsePath) (path2 : ParsePath) (fl2 : Bool),
        tryBranches (fun p d pa t => findPathsImpl f g p d pa t) bs i fl paths diags
            (pre ++ [⟨s, lb⟩]) = some (paths1, diags1, path2, fl2) →
        bs = (branchesOf g s).drop i →
        chainTo g pre s = true →
        noSelfChoice g pre = true →
        (chosenPairs pre).Nodup →
        (∀ q ∈ paths, GoodPath g q) →
        ∀ q ∈ paths1, GoodPath g q := by
      intro g bs
      induction bs with
      | nil =>
        intro i fl paths diags pre s lb paths1 diags1 path2 fl2 h _ _ _ _ hacc
        simp only [tryBranches, Option.some_inj, Prod.mk.injEq] at h
        exact h.1 ▸ hacc
      | cons t rest ihb =>
        intro i fl paths diags pre s lb paths1 diags1 path2 fl2 h hbs hchain hnself hnodup hacc
        have hrest : rest = (branchesOf g s).drop (i + 1) := by
          have h1 : ((branchesOf g s).drop i).drop 1 = (branchesOf g s).drop (i + 1) :=
            List.drop_drop 1 i _
          rw [← hbs] at h1
          simpa using h1
        have hget : (branchesOf g s)[i]? = some t := getElem?_of_drop_cons hbs.symm
        simp only [tryBranches] at h
        cases hfb : followBranch (pre ++ [⟨s, lb⟩]) i t with
        | none =>
          simp only [hfb] at h
          exact ihb (i + 1) fl paths diags pre s lb paths1 diags1 path2 fl2 h hrest
            hchain hnself hnodup hacc
        | some q =>
          obtain rfl : q = pre ++ [⟨s, some i⟩] := followBranch_some_eq pre s lb i t q hfb
          simp only [hfb] at h
          have hchecks := followBranch_some_checks pre s lb i t _ hfb
          cases hrec : findPathsImpl f g paths diags (pre ++ [⟨s, some i⟩]) t with
          | none =>
            simp only [hrec] at h
            exact Option.noConfusion h
          | some r =>
            obtain ⟨rp, rd, rpath⟩ := r
            simp only [hrec] at h
            have hre : rpath = pre ++ [⟨s, some i⟩] :=
              findPathsImpl_restore f g paths diags _ t rp rd rpath hrec
            subst hre
            have hchain2 : chainTo g (pre ++ [⟨s, some i⟩]) t = true :=
              chainTo_concat g pre s i t hchain hget
            have hnotmem : (s, i) ∉ chosenPairs pre := by
              rw [chosenPairs_mem]
              rintro ⟨e, he, hs, hb⟩
              exact hchecks.2 e (List.mem_append_left _ he) ⟨hs, hb⟩
            have hnodup2 : (chosenPairs (pre ++ [⟨s, some i⟩])).Nodup := by
              rw [chosenPairs_concat_some]
              refine List.Nodup.append hnodup (List.nodup_singleton _) ?_
              intro b hb hbm
              simp only [List.mem_singleton] at hbm
              subst hbm
              exact hnotmem hb
            have hnself2 : noSelfChoice g (pre ++ [⟨s, some i⟩]) = true :=
              noSelfChoice_concat_some g pre s i t hget hchecks.1 hnself
            have hacc2 : ∀ q ∈ rp, GoodPath g q :=
              ih g paths diags (pre ++ [⟨s, some i⟩]) t rp rd _ hrec hchain2 hnself2
                hnodup2 hacc
            exact ihb (i + 1) true rp rd pre s (some i) paths1 diags1 path2 fl2 h hrest
              hchain hnself hnodup hacc2
    intro g paths diags path state paths1 diags1 path1 h hchain hnself hnodup hacc
    simp only [findPathsImpl] at h
    split at h
    · rename_i hempty
      simp only [Option.some_inj, Prod.mk.injEq] at h
      intro q hq
      rw [← h.1] at hq
      rcases List.mem_append.mp hq with h1 | h2
      · exact hacc q h1
      · simp only [List.mem_singleton] at h2
        subst h2
        refine ⟨?_, ?_, ?_⟩
        · exact wellFormed_concat_of_chainTo g path state hchain hempty
        · rw [pushState, noSelfChoice_concat_none]
          exact hnself
        · rw [pushState, chosenPairs_concat_none]
          exact hnodup
    · cases htr : tryBranches (fun p d pa t => findPathsImpl f g p d pa t)
          (branchesOf g state) 0 false paths diags (pushState path state) with
      | none =>
        simp only [htr] at h
        exact Option.noConfusion h
      | some r =>
        obtain ⟨rp, rd, rpath, fl⟩ := r
        simp only [htr] at h
        simp only [Option.some_inj, Prod.mk.injEq] at h
        have hgood := htb g (branchesOf g state) 0 false paths diags path state none
          rp rd rpath fl htr (by simp) hchain hnself hnodup hacc
        intro q hq
        rw [← h.1] at hq
        exact hgood q hq

theorem findPaths_good (g : StateToBranchedStates) (fuel : Nat) (state : String)
    (paths diags : List ParsePath) (h : findPaths g fuel state = some (paths, diags)) :
    ∀ p ∈ paths, GoodPath g p := by
  unfold findPaths at h
  cases hr : findPathsImpl fuel g [] [] [] state with
  | none =>
    rw [hr] at h
    exact Option.noConfusion h
  | some r =>
    obtain ⟨rp, rd, rpath⟩ := r
    rw [hr] at h
    simp only [Option.some_inj, Prod.mk.injEq] at h
    rw [← h.1]
    exact findPathsImpl_good fuel g [] [] [] state rp rd rpath hr rfl rfl List.nodup_nil
      (by intro q hq; exact absurd hq (List.not_mem_nil q))

theorem noSelfChoice_spec (g : StateToBranchedStates) (p : ParsePath)
    (h : noSelfChoice g p = true) :
    ∀ e ∈ p, ∀ i, e.branch = some i → (branchesOf g e.state)[i]? ≠ some e.state := by
  intro e he i hbi
  have h2 := List.all_eq_true.mp h e he
  obtain ⟨es, eb⟩ := e
  simp only at hbi
  subst hbi
  simpa using h2

theorem linked_spec (g : StateToBranchedStates) (e enext : Element)
    (h : linked g e enext = true) :
    ∃ i, e.branch = some i ∧ (branchesOf g e.state)[i]? = some enext.state := by
  obtain ⟨es, eb⟩ := e
  cases eb with
  | none => simp [linked] at h
  | some i => exact ⟨i, rfl, by simpa [linked] using h⟩

theorem wellFormed_consecutive (g : StateToBranchedStates) :
    ∀ (p : ParsePath), wellFormed g p = true →
      ∀ (k : Nat) (e enext : Element), p[k]? = some e → p[k + 1]? = some enext →
        linked g e enext = true := by
  intro p
  induction p with
  | nil =>
    intro _ k e enext h1 _
    simp at h1
  | cons e0 tail ih =>
    intro hwf k e enext h1 h2
    cases tail with
    | nil =>
      cases k with
      | zero => simp at h2
      | succ k2 => simp at h1
    | cons e1 rest =>
      simp only [wellFormed, Bool.and_eq_true] at hwf
      cases k with
      | zero =>
        simp only [List.getElem?_cons_zero, Option.some_inj] at h1
        simp only [List.getElem?_cons_succ, List.getElem?_cons_zero, Option.some_inj] at h2
        rw [← h1, ← h2]
        exact hwf.1
      | succ k2 =>
        simp only [List.getElem?_cons_succ] at h1
        exact ih hwf.2 k2 e enext h1
          (by simp only [List.getElem?_cons_succ]; simpa using h2)

/-- C4: for every completed path produced by enumeration, no
(state, chosen-branch) pair occurs twice among the path's elements —
`followBranch` rejects a branch whenever an existing element already
pairs the same state with the same branch identity, so the chosen
(state, branch index) pairs of every produced path are pairwise
distinct. -/
theorem c4_no_branch_reuse (g : StateToBranchedStates) (fuel : Nat) (state : String)
    (paths diags : List ParsePath) (h : findPaths g fuel state = some (paths, diags)) :
    ∀ p ∈ paths, (chosenPairs p).Nodup := by
  intro p hp
  exact (findPaths_good g fuel state paths diags h p hp).2.2

/-- C5: a branch whose target equals its own source state is never
traversed: in every produced path no element's chosen branch targets
the element's own state, and consequently no two consecutive elements
of a produced path carry the same state. -/
theorem c5_no_self_loop (g : StateToBranchedStates) (fuel : Nat) (state : String)
    (paths diags : List ParsePath) (h : findPaths g fuel state = some (paths, diags)) :
    ∀ p ∈ paths,
      (∀ e ∈ p, ∀ i, e.branch = some i → (branchesOf g e.state)[i]? ≠ some e.state) ∧
      (∀ (k : Nat) (e enext : Element), p[k]? = some e → p[k + 1]? = some enext →
        e.state ≠ enext.state) := by
  intro p hp
  obtain ⟨hwf, hns, -⟩ := findPaths_good g fuel state paths diags h p hp
  refine ⟨noSelfChoice_spec g p hns, ?_⟩
  intro k e enext h1 h2 heq
  obtain ⟨i, hbi, hget⟩ := linked_spec g e enext (wellFormed_consecutive g p hwf k e enext h1 h2)
  have hmem : e ∈ p := List.getElem?_mem h1
  exact noSelfChoice_spec g p hns e hmem i hbi (by rw [hget, heq])

/-- C10: every completed path appended to the result set is well-formed:
non-empty, its final element has an unset branch and a branchless
state, and every earlier element's chosen branch is drawn from its
state's branch list and targets exactly the next element's state. -/
theorem c10_output_wellformed (g : StateToBranchedStates) (fuel : Nat) (state : String)
    (paths diags : List ParsePath) (h : findPaths g fuel state = some (paths, diags)) :
    ∀ p ∈ paths, wellFormed g p = true := by
  intro p hp
  exact (findPaths_good g fuel state paths diags h p hp).1

/-- A two-state graph (entry state branching straight to a terminal
state) used to exercise the enumeration theorems on a concrete run. -/
def MiniGraph : StateToBranchedStates := [("start", ["accept"]), ("accept", [])]

/-- C4 witness: on `MiniGraph` the single produced path has pairwise
distinct chosen (state, branch) pairs. -/
theorem c4_no_branch_reuse_witness :
    findPaths MiniGraph 2 "start" = some ([[⟨"start", some 0⟩, ⟨"accept", none⟩]], []) ∧
      (chosenPairs [⟨"start", some 0⟩, ⟨"accept", none⟩]).Nodup :=
  ⟨by decide,
   c4_no_branch_reuse MiniGraph 2 "start" [[⟨"start", some 0⟩, ⟨"accept", none⟩]] []
     (by decide) [⟨"start", some 0⟩, ⟨"accept", none⟩] (by decide)⟩

/-- C5 witness: on `MiniGraph` the two consecutive states of the single
produced path differ. -/
theorem c5_no_self_loop_witness :
    findPaths MiniGraph 2 "start" = some ([[⟨"start", some 0⟩, ⟨"accept", none⟩]], []) ∧
      (Element.state ⟨"start", some 0⟩ ≠ Element.state ⟨"accept", none⟩) :=
  ⟨by decide,
   (c5_no_self_loop MiniGraph 2 "start" [[⟨"start", some 0⟩, ⟨"accept", none⟩]] []
     (by decide) [⟨"start", some 0⟩, ⟨"accept", none⟩] (by decide)).2 0
     ⟨"start", some 0⟩ ⟨"accept", none⟩ (by decide) (by decide)⟩

/-- C10 witness: on `MiniGraph` the single produced path is
well-formed. -/
theorem c10_output_wellformed_witness :
    findPaths MiniGraph 2 "start" = some ([[⟨"start", some 0⟩, ⟨"accept", none⟩]], []) ∧
      wellFormed MiniGraph [⟨"start", some 0⟩, ⟨"accept", none⟩] = true :=
  ⟨by decide,
   c10_output_wellformed MiniGraph 2 "start" [[⟨"start", some 0⟩, ⟨"accept", none⟩]] []
     (by decide) [⟨"start", some 0⟩, ⟨"accept", none⟩] (by decide)⟩

/-- Modelled from the spec: the exhaustive enumeration of all
root-to-sink paths of the graph — every path from `s` to a branchless
state, obtained by following every branch in declared order, rendered
as its state-name sequence.  (`fuel` bounds the path length; on an
acyclic graph any fuel above the length of the longest path from `s`
yields the full, stable set.)  This is the reference enumeration the
produced path set of a DAG is compared against. -/
def allSinkPaths (g : StateToBranchedStates) : Nat → String → List (List String)
  | 0, _ => []
  | fuel + 1, s =>
    if (branchesOf g s).isEmpty then [[s]]
    else (branchesOf g s).flatMap (fun t => (allSinkPaths g fuel t).map (fun q => s :: q))

theorem flatMap_congr_mem {α β : Type} (l : List α) (f h : α → List β)
    (hfh : ∀ a ∈ l, f a = h a) : l.flatMap f = l.flatMap h := by
  induction l with
  | nil => rfl
  | cons a rest ih =>
    simp only [List.flatMap_cons]
    rw [hfh a (List.mem_cons_self _ _), ih (fun b hb => hfh b (List.mem_cons_of_mem _ hb))]

theorem allSinkPaths_stable (g : StateToBranchedStates) (rank : String → Nat)
    (hrank : ∀ s t, t ∈ branchesOf g s → rank t < rank s) :
    ∀ n m s, rank s < n → rank s < m → allSinkPaths g n s = allSinkPaths g m s := by
  intro n
  induction n using Nat.strong_induction_on with
  | _ n ih =>
    intro m s hn hm
    cases n with
    | zero => omega
    | succ k =>
      cases m with
      | zero => omega
      | succ l =>
        simp only [allSinkPaths]
        by_cases hempty : (branchesOf g s).isEmpty = true
        · rw [if_pos hempty, if_pos hempty]
        · rw [if_neg hempty, if_neg hempty]
          refine flatMap_congr_mem _ _ _ ?_
          intro t ht
          have hts := hrank s t ht
          rw [ih k (by omega) l t (by omega) (by omega)]

theorem branchesOf_cases (g : StateToBranchedStates) (s t : String)
    (ht : t ∈ branchesOf g s) : ∃ p ∈ g, p.1 = s ∧ t ∈ p.2 := by
  unfold branchesOf at ht
  cases hf : g.find? (fun p => p.1 == s) with
  | none =>
    rw [hf] at ht
    exact absurd ht (List.not_mem_nil t)
  | some p =>
    rw [hf] at ht
    exact ⟨p, List.mem_of_find?_eq_some hf, by simpa using List.find?_some hf, ht⟩

theorem findPathsImpl_dag :
    ∀ (fuel : Nat) (g : StateToBranchedStates) (rank : String → Nat),
      (∀ s t, t ∈ branchesOf g s → rank t < rank s) →
      ∀ (paths diags : List ParsePath) (path : ParsePath) (s : String)
        (paths1 diags1 : List ParsePath) (path1 : ParsePath),
        findPathsImpl fuel g paths diags path s = some (paths1, diags1, path1) →
        (∀ e ∈ path, rank s < rank e.state) →
        paths1.map stateNames =
          paths.map stateNames ++
            (allSinkPaths g (rank s + 1) s).map (fun q => stateNames path ++ q) := by
  intro fuel
  induction fuel with
  | zero =>
    intro g rank hrank paths diags path s paths1 diags1 path1 h
    exact absurd h (by simp [findPathsImpl])
  | succ f ih =>
    intro g rank hrank
    have htb : ∀ (bs : List String) (i : Nat) (fl : Bool) (paths diags : List ParsePath)
        (pre : ParsePath) (s : String) (lb : Option Nat)
        (paths1 diags1 : List ParsePath) (path2 : ParsePath) (fl2 : Bool),
        tryBranches (fun p d pa t => findPathsImpl f g p d pa t) bs i fl paths diags
            (pre ++ [⟨s, lb⟩]) = some (paths1, diags1, path2, fl2) →
        bs = (branchesOf g s).drop i →
        (∀ e ∈ pre, rank s < rank e.state) →
        (lb = none ∨ ∃ j, j < i ∧ lb = some j) →
        paths1.map stateNames =
          paths.map stateNames ++
            bs.flatMap (fun t => (allSinkPaths g (rank s) t).map
              (fun q => (stateNames pre ++ [s]) ++ q)) := by
      intro bs
      induction bs with
      | nil =>
        intro i fl paths diags pre s lb paths1 diags1 path2 fl2 h _ _ _
        simp only [tryBranches, Option.some_inj, Prod.mk.injEq] at h
        simp [← h.1]
      | cons t rest ihb =>
        intro i fl paths diags pre s lb paths1 diags1 path2 fl2 h hbs hanc hlb
        have hrest : rest = (branchesOf g s).drop (i + 1) := by
          have h1 : ((branchesOf g s).drop i).drop 1 = (branchesOf g s).drop (i + 1) :=
            List.drop_drop 1 i _
          rw [← hbs] at h1
          simpa using h1
        have htmem : t ∈ branchesOf g s := by
          have hin : t ∈ (branchesOf g s).drop i := by
            rw [← hbs]
            exact List.mem_cons_self _ _
          exact List.drop_subset i _ hin
        have hts : rank t < rank s := hrank s t htmem
        have hfb : followBranch (pre ++ [⟨s, lb⟩]) i t = some (pre ++ [⟨s, some i⟩]) := by
          apply followBranch_some_of
          · intro heq
            rw [heq] at hts
            exact absurd hts (lt_irrefl _)
          · intro e he hc
            rcases List.mem_append.mp he with h1 | h2
            · have := hanc e h1
              rw [hc.1] at this
              exact absurd this (lt_irrefl _)
            · simp only [List.mem_singleton] at h2
              subst h2
              simp only at hc
              rcases hlb with hnone | ⟨j, hj, hsome⟩
              · rw [hnone] at hc
                exact Option.noConfusion hc.2
              · rw [hsome] at hc
                have : j = i := Option.some_inj.mp hc.2
                omega
        simp only [tryBranches, hfb] at h
        cases hrec : findPathsImpl f g paths diags (pre ++ [⟨s, some i⟩]) t with
        | none =>
          simp only [hrec] at h
          exact Option.noConfusion h
        | some r =>
          obtain ⟨rp, rd, rpath⟩ := r
          simp only [hrec] at h
          have hre : rpath = pre ++ [⟨s, some i⟩] :=
            findPathsImpl_restore f g paths diags _ t rp rd rpath hrec
          subst hre
          have hanc2 : ∀ e ∈ pre ++ [⟨s, some i⟩], rank t < rank e.state := by
            intro e he
            rcases List.mem_append.mp he with h1 | h2
            · exact lt_trans hts (hanc e h1)
            · simp only [List.mem_singleton] at h2
              subst h2
              exact hts
          have hmid := ih g rank hrank paths diags (pre ++ [⟨s, some i⟩]) t rp rd _ hrec hanc2
          have htail := ihb (i + 1) true rp rd pre s (some i) paths1 diags1 path2 fl2 h
            hrest hanc (Or.inr ⟨i, Nat.lt_succ_self i, rfl⟩)
          rw [htail, hmid]
          have hstab : allSinkPaths g (rank t + 1) t = allSinkPaths g (rank s) t :=
            allSinkPaths_stable g rank hrank (rank t + 1) (rank s) t (Nat.lt_succ_self _) hts
          rw [List.flatMap_cons, ← hstab]
          simp [stateNames, List.append_assoc]
    intro paths diags path s paths1 diags1 path1 h hanc
    simp only [findPathsImpl] at h
    split at h
    · rename_i hempty
      simp only [Option.some_inj, Prod.mk.injEq] at h
      rw [← h.1]
      simp [allSinkPaths, hempty, stateNames, pushState]
    · rename_i hempty
      cases htr : tryBranches (fun p d pa t => findPathsImpl f g p d pa t)
          (branchesOf g s) 0 false paths diags (pushState path s) with
      | none =>
        simp only [htr] at h
        exact Option.noConfusion h
      | some r =>
        obtain ⟨rp, rd, rpath, fl⟩ := r
        simp only [htr] at h
        simp only [Option.some_inj, Prod.mk.injEq] at h
        have hmain := htb (branchesOf g s) 0 false paths diags path s none rp rd rpath fl
          htr (by simp) hanc (Or.inl rfl)
        rw [← h.1, hmain]
        congr 1
        conv_rhs => simp only [allSinkPaths]
        rw [if_neg hempty]
        rw [List.map_flatMap]
        refine flatMap_congr_mem _ _ _ ?_
        intro t ht
        rw [List.map_map]
        congr 1
        funext q
        simp

/-- C6: for an acyclic graph — witnessed by a rank function that
strictly decreases along every branch — any successful enumeration from
an entry state produces exactly the exhaustive list of root-to-sink
state-name paths (the spec-modelled `allSinkPaths`), with no path
omitted, none added, and none duplicated beyond the reference
enumeration's own multiplicity, in the same branch-declaration
order. -/
theorem c6_dag_completeness (g : StateToBranchedStates) (rank : String → Nat)
    (hrank : ∀ s t, t ∈ branchesOf g s → rank t < rank s)
    (entry : String) (fuel : Nat) (paths diags : List ParsePath)
    (h : findPaths g fuel entry = some (paths, diags)) :
    paths.map stateNames = allSinkPaths g (rank entry + 1) entry := by
  unfold findPaths at h
  cases hr : findPathsImpl fuel g [] [] [] entry with
  | none =>
    rw [hr] at h
    exact Option.noConfusion h
  | some r =>
    obtain ⟨rp, rd, rpath⟩ := r
    rw [hr] at h
    simp only [Option.some_inj, Prod.mk.injEq] at h
    rw [← h.1]
    have hdag := findPathsImpl_dag fuel g rank hrank [] [] [] entry rp rd rpath hr
      (by intro e he; exact absurd he (List.not_mem_nil e))
    simpa [stateNames] using hdag

/-- A four-state diamond DAG used to witness the acyclic-completeness
theorem on a concrete run. -/
def DagGraph : StateToBranchedStates :=
  [("start", ["a", "b"]), ("a", ["accept"]), ("b", ["accept"]), ("accept", [])]

/-- C6 witness: on the diamond DAG, the enumeration from `start`
produces exactly the two root-to-sink paths of the exhaustive
enumeration, in order. -/
theorem c6_dag_completeness_witness :
    findPaths DagGraph 5 "start" =
      some ([[⟨"start", some 0⟩, ⟨"a", some 0⟩, ⟨"accept", none⟩],
             [⟨"start", some 1⟩, ⟨"b", some 0⟩, ⟨"accept", none⟩]], []) ∧
      ([[⟨"start", some 0⟩, ⟨"a", some 0⟩, ⟨"accept", none⟩],
        [⟨"start", some 1⟩, ⟨"b", some 0⟩, ⟨"accept", none⟩]] : List ParsePath).map stateNames =
        allSinkPaths DagGraph 3 "start" := by
  constructor
  · decide
  · exact c6_dag_completeness DagGraph
      (fun s => if s = "start" then 2 else if s = "accept" then 0 else 1)
      (by
        intro s t ht
        obtain ⟨p, hp, hps, hpt⟩ := branchesOf_cases DagGraph s t ht
        simp only [DagGraph, List.mem_cons, List.not_mem_nil, or_false] at hp
        rcases hp with hp | hp | hp | hp
        all_goals subst hp
        all_goals simp only at hps hpt
        all_goals subst hps
        all_goals simp only [List.mem_cons, List.not_mem_nil, or_false] at hpt
        · rcases hpt with hpt | hpt
          · subst hpt; decide
          · subst hpt; decide
        · subst hpt; decide
        · subst hpt; decide)
      "start" 5
      [[⟨"start", some 0⟩, ⟨"a", some 0⟩, ⟨"accept", none⟩],
       [⟨"start", some 1⟩, ⟨"b", some 0⟩, ⟨"accept", none⟩]] [] (by decide)
